import Mathlib

/-!
Verification of the OAI-BOT RAG pipeline core.

Python strings are modelled as `List Char` (a Python `str` is a sequence of
code points) for the chunker, and as Lean `String` for the prompt/context
builders whose proofs do not need character-level induction.  Fallible
operations return explicit result types; ambient effects (uuid generation,
timestamps, remote providers) are passed in as function parameters.
-/

namespace OAIBot

/-- Whitespace test used by Python's `str.strip()` (restricted to the ASCII
whitespace characters: space, tab, newline, carriage return, vertical tab,
form feed). -/
def isPyWs (c : Char) : Bool :=
  c = ' ' || c = '\t' || c = '\n' || c = '\r' || c.val = 11 || c.val = 12

/-- `str.strip()` on a list of characters: drop whitespace from both ends
(`List.rdropWhile p l` is `(l.reverse.dropWhile p).reverse`). -/
def strip (l : List Char) : List Char :=
  (l.dropWhile isPyWs).rdropWhile isPyWs

/-- `text.split("\n\n")`: split on each non-overlapping occurrence of a
double newline, scanning left to right. -/
def splitParas : List Char → List (List Char)
  | [] => [[]]
  | [c] => [[c]]
  | c :: d :: rest =>
    if c = '\n' ∧ d = '\n' then [] :: splitParas rest
    else
      match splitParas (d :: rest) with
      | [] => [[c]]
      | p :: ps => (c :: p) :: ps

/-- Scanner for an occurrence of `"\n\n"` in the text. -/
def hasNlNl : List Char → Bool
  | c :: d :: rest => (c = '\n' && d = '\n') || hasNlNl (d :: rest)
  | _ => false

/-- The two-character paragraph separator `"\n\n"`. -/
def nlnl : List Char := ['\n', '\n']

/-- One chunk produced by `DocumentProcessor._split_text_into_chunks`. -/
structure Chunk where
  text : List Char
  chunk_index : Nat
  character_count : Nat
deriving DecidableEq

/-- The loop state of the chunker: emitted chunks, the running buffer, and
the next chunk index. -/
structure ChunkState where
  chunks : List Chunk
  current_chunk : List Char
  chunk_index : Nat
deriving DecidableEq

/-- Seal a buffer as a chunk (`current_chunk.strip()` with its length). -/
def mkChunk (cc : List Char) (idx : Nat) : Chunk :=
  ⟨strip cc, idx, (strip cc).length⟩

/-- One iteration of the paragraph loop in `_split_text_into_chunks`. -/
def chunkStep (chunk_size overlap : Nat) (st : ChunkState) (para : List Char) :
    ChunkState :=
  let paragraph := strip para
  if paragraph = [] then st
  else if chunk_size < st.current_chunk.length + paragraph.length ∧
      st.current_chunk ≠ [] then
    { chunks := st.chunks ++ [mkChunk st.current_chunk st.chunk_index]
      current_chunk :=
        if 0 < overlap ∧ overlap < st.current_chunk.length then
          st.current_chunk.drop (st.current_chunk.length - overlap) ++ nlnl ++
            paragraph
        else paragraph
      chunk_index := st.chunk_index + 1 }
  else
    { st with
      current_chunk :=
        if st.current_chunk ≠ [] then st.current_chunk ++ nlnl ++ paragraph
        else paragraph }

/-- The code after the paragraph loop: flush a non-empty buffer as the last
chunk, then fall back to the whole trimmed text when no chunk was produced. -/
def finalizeChunks (text : List Char) (st : ChunkState) : List Chunk :=
  let chunks :=
    if strip st.current_chunk ≠ [] then
      st.chunks ++ [mkChunk st.current_chunk st.chunk_index]
    else st.chunks
  if chunks = [] ∧ strip text ≠ [] then
    [⟨strip text, 0, (strip text).length⟩]
  else chunks

/-- `DocumentProcessor._split_text_into_chunks` (the second, effective
definition in the source): paragraph-wise accumulation with overlap seeding,
a final flush of the buffer, and a whole-text fallback when no chunk was
produced. -/
def split_text_into_chunks (chunk_size overlap : Nat) (text : List Char) :
    List Chunk :=
  if text = [] then []
  else
    finalizeChunks text
      ((splitParas text).foldl (chunkStep chunk_size overlap) ⟨[], [], 0⟩)

example :
    split_text_into_chunks 10 3
      (String.toList "aaaaaaaaaaaaaaa\n\nb") =
      [⟨String.toList "aaaaaaaaaaaaaaa", 0, 15⟩,
       ⟨String.toList "aaa\n\nb", 1, 6⟩] := by decide

example : split_text_into_chunks 5 0 (String.toList "ab\n\ncd\n\nef") =
    [⟨String.toList "ab\n\ncd", 0, 6⟩, ⟨String.toList "ef", 1, 2⟩] := by
  decide

example : split_text_into_chunks 1000 200 (String.toList "  \n\n \n  ") = [] := by
  decide

/-! ### Basic facts about `strip` -/

lemma strip_nil : strip [] = [] := rfl

lemma strip_head_not (l : List Char) (c : Char) (t : List Char)
    (h : strip l = c :: t) : ¬ (isPyWs c = true) := by
  obtain ⟨s, hs⟩ := List.rdropWhile_prefix isPyWs (l.dropWhile isPyWs)
  rw [show (l.dropWhile isPyWs).rdropWhile isPyWs = strip l from rfl, h] at hs
  have hcons : List.dropWhile isPyWs l = c :: (t ++ s) := by
    rw [← hs]; simp
  have hne : l.dropWhile isPyWs ≠ [] := by
    rw [hcons]; simp
  have hhead := List.head_dropWhile_not isPyWs l hne
  have hc : (List.dropWhile isPyWs l).head hne = c := by
    simp only [hcons, List.head_cons]
  rw [hc] at hhead
  simp [hhead]

lemma strip_dropWhile_self (l : List Char) :
    (strip l).dropWhile isPyWs = strip l := by
  rcases h : strip l with _ | ⟨c, t⟩
  · rfl
  · rw [List.dropWhile_cons, if_neg (strip_head_not l c t h)]

lemma strip_idem (l : List Char) : strip (strip l) = strip l := by
  show ((strip l).dropWhile isPyWs).rdropWhile isPyWs = strip l
  rw [strip_dropWhile_self]
  show ((l.dropWhile isPyWs).rdropWhile isPyWs).rdropWhile isPyWs = strip l
  rw [List.rdropWhile_idempotent]
  rfl

lemma strip_length_le (l : List Char) : (strip l).length ≤ l.length :=
  le_trans (List.IsPrefix.length_le (List.rdropWhile_prefix _ _))
    (List.IsSuffix.length_le (List.dropWhile_suffix _))

lemma strip_ne_nil_imp (l : List Char) (h : strip l ≠ []) : l ≠ [] := by
  intro hl
  exact h (by rw [hl]; rfl)

/-! ### `splitParas` on separator-free text -/

lemma splitParas_no_sep (l : List Char) (h : hasNlNl l = false) :
    splitParas l = [l] := by
  induction l using splitParas.induct with
  | case1 => rfl
  | case2 c => rfl
  | case3 c d rest hif =>
    exfalso
    rw [hasNlNl, hif.1, hif.2] at h
    simp at h
  | case4 c d rest hif hnil ih =>
    exfalso
    rw [hasNlNl] at h
    simp only [Bool.or_eq_false_iff] at h
    rw [ih h.2] at hnil
    exact List.cons_ne_nil _ _ hnil
  | case5 c d rest hif p ps heq ih =>
    rw [hasNlNl] at h
    simp only [Bool.or_eq_false_iff] at h
    have hdr := ih h.2
    rw [heq] at hdr
    have hp : p = d :: rest := (List.cons_eq_cons.mp hdr).1
    have hps : ps = [] := (List.cons_eq_cons.mp hdr).2
    rw [splitParas, if_neg hif, heq, hp, hps]

/-! ### C1: chunk indexes are `0, 1, ..., n-1` in emission order -/

lemma chunkStep_indexes (cs ov : Nat) (st : ChunkState) (para : List Char)
    (h1 : st.chunks.map Chunk.chunk_index = List.range st.chunks.length)
    (h2 : st.chunk_index = st.chunks.length) :
    ((chunkStep cs ov st para).chunks.map Chunk.chunk_index =
      List.range (chunkStep cs ov st para).chunks.length) ∧
    (chunkStep cs ov st para).chunk_index =
      (chunkStep cs ov st para).chunks.length := by
  unfold chunkStep
  by_cases hp : strip para = []
  · simp only [hp, if_pos rfl]
    exact ⟨h1, h2⟩
  · by_cases hc : cs < st.current_chunk.length + (strip para).length ∧
        st.current_chunk ≠ []
    · simp only [if_neg hp, if_pos hc]
      refine ⟨?_, ?_⟩
      · simp only [List.map_append, List.length_append, h1, h2, List.map_cons,
          List.map_nil, List.length_cons, List.length_nil]
        simp [mkChunk, List.range_succ]
      · simp [h2]
    · simp only [if_neg hp, if_neg hc]
      exact ⟨h1, h2⟩

lemma foldl_chunkStep_indexes (cs ov : Nat) (paras : List (List Char)) :
    ∀ st : ChunkState,
      st.chunks.map Chunk.chunk_index = List.range st.chunks.length →
      st.chunk_index = st.chunks.length →
      ((paras.foldl (chunkStep cs ov) st).chunks.map Chunk.chunk_index =
        List.range (paras.foldl (chunkStep cs ov) st).chunks.length) ∧
      (paras.foldl (chunkStep cs ov) st).chunk_index =
        (paras.foldl (chunkStep cs ov) st).chunks.length := by
  induction paras with
  | nil => exact fun st h1 h2 => ⟨h1, h2⟩
  | cons p ps ih =>
    intro st h1 h2
    have h := chunkStep_indexes cs ov st p h1 h2
    exact ih _ h.1 h.2

lemma finalizeChunks_indexes (text : List Char) (st : ChunkState)
    (h1 : st.chunks.map Chunk.chunk_index = List.range st.chunks.length)
    (h2 : st.chunk_index = st.chunks.length) :
    (finalizeChunks text st).map Chunk.chunk_index =
      List.range (finalizeChunks text st).length := by
  unfold finalizeChunks
  by_cases hcc : strip st.current_chunk ≠ []
  · simp only [if_pos hcc]
    have hmap : (st.chunks ++ [mkChunk st.current_chunk st.chunk_index]).map
        Chunk.chunk_index =
        List.range (st.chunks ++ [mkChunk st.current_chunk st.chunk_index]).length := by
      simp only [List.map_append, List.length_append, h1, h2, List.map_cons,
        List.map_nil, List.length_cons, List.length_nil]
      simp [mkChunk, List.range_succ]
    by_cases hfb : st.chunks ++ [mkChunk st.current_chunk st.chunk_index] = [] ∧
        strip text ≠ []
    · exact absurd hfb.1 (by simp)
    · simp only [if_neg hfb]
      exact hmap
  · simp only [if_neg hcc]
    by_cases hfb : st.chunks = [] ∧ strip text ≠ []
    · simp only [if_pos hfb, List.map_cons, List.map_nil, List.length_cons,
        List.length_nil]
      decide
    · simp only [if_neg hfb]
      exact h1

lemma splitParas_chars (l : List Char) :
    ∀ p ∈ splitParas l, ∀ c ∈ p, c ∈ l := by
  induction l using splitParas.induct with
  | case1 =>
    intro p hp c hc
    have hp2 : p = [] := List.mem_singleton.mp hp
    rw [hp2] at hc
    cases hc
  | case2 a =>
    intro p hp c hc
    have hp2 : p = [a] := List.mem_singleton.mp hp
    rw [hp2] at hc
    exact hc
  | case3 a d rest hif ih =>
    intro p hp c hc
    rw [splitParas, if_pos hif] at hp
    rcases List.mem_cons.mp hp with rfl | hp
    · cases hc
    · exact List.mem_cons_of_mem _ (List.mem_cons_of_mem _ (ih p hp c hc))
  | case4 a d rest hif hnil ih =>
    intro p hp c hc
    rw [splitParas, if_neg hif, hnil] at hp
    have hp2 : p = [a] := List.mem_singleton.mp hp
    rw [hp2] at hc
    have : c = a := List.mem_singleton.mp hc
    rw [this]
    exact List.mem_cons_self _ _
  | case5 a d rest hif q qs heq ih =>
    intro p hp c hc
    rw [splitParas, if_neg hif, heq] at hp
    rcases List.mem_cons.mp hp with rfl | hp
    · rcases List.mem_cons.mp hc with rfl | hc
      · exact List.mem_cons_self _ _
      · exact List.mem_cons_of_mem _
          (ih q (heq ▸ List.mem_cons_self _ _) c hc)
    · exact List.mem_cons_of_mem _
        (ih p (heq ▸ List.mem_cons_of_mem _ hp) c hc)

lemma strip_eq_nil_of_ws (l : List Char) (h : ∀ c ∈ l, isPyWs c = true) :
    strip l = [] := by
  have hd : l.dropWhile isPyWs = [] := List.dropWhile_eq_nil_iff.mpr h
  rw [strip, hd]
  rfl

lemma foldl_chunkStep_ws (cs ov : Nat) (paras : List (List Char))
    (h : ∀ p ∈ paras, strip p = []) :
    ∀ st : ChunkState, paras.foldl (chunkStep cs ov) st = st := by
  induction paras with
  | nil => intro st; rfl
  | cons p ps ih =>
    intro st
    rw [List.foldl_cons]
    have hstep : chunkStep cs ov st p = st := by
      rw [chunkStep]
      simp [h p (List.mem_cons_self _ _)]
    rw [hstep]
    exact ih (fun q hq => h q (List.mem_cons_of_mem _ hq)) st

lemma split_ws_empty (cs ov : Nat) (text : List Char)
    (h : ∀ c ∈ text, isPyWs c = true) :
    split_text_into_chunks cs ov text = [] := by
  by_cases ht : text = []
  · rw [split_text_into_chunks, if_pos ht]
  · rw [split_text_into_chunks, if_neg ht]
    have hps : ∀ p ∈ splitParas text, strip p = [] := fun p hp =>
      strip_eq_nil_of_ws p fun c hc => h c (splitParas_chars text p hp c hc)
    rw [foldl_chunkStep_ws cs ov _ hps]
    rw [finalizeChunks]
    have h2 : strip text = [] := strip_eq_nil_of_ws text h
    simp [strip_nil, h2]

/-- C1: for every input text (and any configured chunk size and overlap) the
chunks returned by `_split_text_into_chunks` carry `chunk_index` values that
are exactly `0, 1, ..., n-1` in emission order, where `n` is the number of
chunks returned; an empty or whitespace-only input yields the empty
sequence, so the property holds vacuously there. -/
theorem chunk_indexes_sequential (cs ov : Nat) (text : List Char) :
    ((split_text_into_chunks cs ov text).map Chunk.chunk_index =
      List.range (split_text_into_chunks cs ov text).length) ∧
    ((∀ c ∈ text, isPyWs c = true) →
      split_text_into_chunks cs ov text = []) := by
  refine ⟨?_, split_ws_empty cs ov text⟩
  unfold split_text_into_chunks
  by_cases ht : text = []
  · simp [ht]
  · simp only [if_neg ht]
    have h := foldl_chunkStep_indexes cs ov (splitParas text) ⟨[], [], 0⟩
      (by simp) (by simp)
    exact finalizeChunks_indexes text _ h.1 h.2

/-- Witness for C1 at concrete inputs: `"ab\n\ncd\n\nef"` with
`chunk_size = 5` yields indexes `[0, 1]`, and the whitespace-only input
`" \n \n\n\t"` yields no chunks. -/
theorem chunk_indexes_sequential_witness :
    ((split_text_into_chunks 5 0 (String.toList "ab\n\ncd\n\nef")).map
        Chunk.chunk_index =
      List.range (split_text_into_chunks 5 0
        (String.toList "ab\n\ncd\n\nef")).length) ∧
    (∀ c ∈ String.toList " \n \n\n\t", isPyWs c = true) ∧
    split_text_into_chunks 5 0 (String.toList " \n \n\n\t") = [] := by
  refine ⟨(chunk_indexes_sequential 5 0 _).1, by decide, ?_⟩
  exact (chunk_indexes_sequential 5 0 _).2 (by decide)

/-! ### C7: a single separator-free paragraph becomes one whole chunk -/

/-- C7: for every input consisting of a single paragraph (no double-newline
separator anywhere) whose trimmed text is non-empty — no matter how long the
paragraph is compared to `chunk_size` — the chunker returns exactly one chunk
whose text is the full trimmed input. -/
theorem single_paragraph_single_chunk (cs ov : Nat) (text : List Char)
    (hno : hasNlNl text = false) (hne : strip text ≠ []) :
    split_text_into_chunks cs ov text =
      [⟨strip text, 0, (strip text).length⟩] := by
  have htext : text ≠ [] := strip_ne_nil_imp text hne
  unfold split_text_into_chunks
  rw [if_neg htext, splitParas_no_sep text hno]
  simp only [List.foldl_cons, List.foldl_nil]
  have hstep : chunkStep cs ov ⟨[], [], 0⟩ text = ⟨[], strip text, 0⟩ := by
    rw [chunkStep]
    simp only [if_neg hne]
    have hc : ¬ (cs < (([] : List Char)).length + (strip text).length ∧
        ([] : List Char) ≠ []) := by simp
    rw [if_neg hc]
    simp
  rw [hstep]
  rw [finalizeChunks]
  have hcc : strip (strip text) ≠ [] := by rw [strip_idem]; exact hne
  simp only [if_pos hcc, List.nil_append]
  have hfb : ¬ ([mkChunk (strip text) 0] = [] ∧ strip text ≠ []) := by simp
  rw [if_neg hfb, mkChunk, strip_idem]

/-- Witness for C7 at a concrete input: `" hello world "` has no blank-line
separator and trims to `"hello world"`, which is returned as the single chunk
even with `chunk_size = 3`. -/
theorem single_paragraph_single_chunk_witness :
    hasNlNl (String.toList " hello world ") = false ∧
    strip (String.toList " hello world ") ≠ [] ∧
    split_text_into_chunks 3 1 (String.toList " hello world ") =
      [⟨String.toList "hello world", 0, 11⟩] := by
  refine ⟨by decide, by decide, ?_⟩
  have h := single_paragraph_single_chunk 3 1 (String.toList " hello world ")
    (by decide) (by decide)
  rw [h]
  decide

/-! ### C2: chunk size bound -/

/-- C2 counterexample: with `chunk_size = 10` and `overlap = 3`, the input
`"aaaaaaaaaaaaaaa\n\nb"` (one 15-character paragraph followed by `"b"`)
yields two chunks, and the first — a non-final chunk of a multi-chunk
document — has `character_count = 15 > 10 = chunk_size`.  This refutes the
claim that every chunk except the final chunk of a short document satisfies
`character_count ≤ chunk_size`. -/
theorem chunk_size_bound_counterexample :
    split_text_into_chunks 10 3 (String.toList "aaaaaaaaaaaaaaa\n\nb") =
      [⟨String.toList "aaaaaaaaaaaaaaa", 0, 15⟩,
       ⟨String.toList "aaa\n\nb", 1, 6⟩] ∧
    10 < 15 := ⟨by decide, by decide⟩

/-- The length of the longest trimmed paragraph of the input. -/
def maxParaLen (text : List Char) : Nat :=
  ((splitParas text).map (fun p => (strip p).length)).foldr max 0

lemma le_foldr_max (x : Nat) (l : List Nat) (h : x ∈ l) :
    x ≤ l.foldr max 0 := by
  induction l with
  | nil => cases h
  | cons a t ih =>
    rcases List.mem_cons.mp h with h | h
    · rw [h]; exact le_max_left _ _
    · exact le_trans (ih h) (le_max_right _ _)

lemma chunkStep_bound (cs ov P : Nat) (st : ChunkState) (para : List Char)
    (hpara : (strip para).length ≤ P)
    (hchunks : ∀ ch ∈ st.chunks,
      ch.character_count ≤ max (cs + 2) (ov + 2 + P))
    (hcc : st.current_chunk.length ≤ max (cs + 2) (ov + 2 + P)) :
    (∀ ch ∈ (chunkStep cs ov st para).chunks,
      ch.character_count ≤ max (cs + 2) (ov + 2 + P)) ∧
    (chunkStep cs ov st para).current_chunk.length ≤
      max (cs + 2) (ov + 2 + P) := by
  have hPB : P ≤ max (cs + 2) (ov + 2 + P) :=
    le_trans (by omega) (le_max_right _ _)
  rw [chunkStep]
  by_cases hp : strip para = []
  · rw [if_pos hp]
    exact ⟨hchunks, hcc⟩
  · rw [if_neg hp]
    by_cases hc : cs < st.current_chunk.length + (strip para).length ∧
        st.current_chunk ≠ []
    · rw [if_pos hc]
      refine ⟨?_, ?_⟩
      · intro ch hch
        rcases List.mem_append.mp hch with h | h
        · exact hchunks ch h
        · rcases List.mem_singleton.mp h with rfl
          show (strip st.current_chunk).length ≤ _
          exact le_trans (strip_length_le _) hcc
      · by_cases hov : 0 < ov ∧ ov < st.current_chunk.length
        · rw [if_pos hov]
          simp only [List.length_append, List.length_drop]
          have : st.current_chunk.length -
              (st.current_chunk.length - ov) = ov := by omega
          rw [this]
          have : ov + nlnl.length + (strip para).length ≤ ov + 2 + P := by
            simp only [nlnl, List.length_cons, List.length_nil]
            omega
          exact le_trans this (le_max_right _ _)
        · rw [if_neg hov]
          exact le_trans hpara hPB
    · rw [if_neg hc]
      refine ⟨hchunks, ?_⟩
      by_cases hne : st.current_chunk ≠ []
      · rw [if_pos hne]
        have hlen : st.current_chunk.length + (strip para).length ≤ cs := by
          by_contra hgt
          exact hc ⟨by omega, hne⟩
        simp only [List.length_append, nlnl, List.length_cons, List.length_nil]
        exact le_trans (by omega) (le_max_left (cs + 2) (ov + 2 + P))
      · rw [if_neg hne]
        exact le_trans hpara hPB

lemma foldl_chunkStep_bound (cs ov P : Nat) (paras : List (List Char))
    (hps : ∀ p ∈ paras, (strip p).length ≤ P) :
    ∀ st : ChunkState,
      (∀ ch ∈ st.chunks, ch.character_count ≤ max (cs + 2) (ov + 2 + P)) →
      st.current_chunk.length ≤ max (cs + 2) (ov + 2 + P) →
      (∀ ch ∈ (paras.foldl (chunkStep cs ov) st).chunks,
        ch.character_count ≤ max (cs + 2) (ov + 2 + P)) ∧
      (paras.foldl (chunkStep cs ov) st).current_chunk.length ≤
        max (cs + 2) (ov + 2 + P) := by
  induction paras with
  | nil => exact fun st h1 h2 => ⟨h1, h2⟩
  | cons p ps ih =>
    intro st h1 h2
    have hstep := chunkStep_bound cs ov P st p
      (hps p (List.mem_cons_self _ _)) h1 h2
    exact ih (fun q hq => hps q (List.mem_cons_of_mem _ hq)) _ hstep.1 hstep.2

/-- C2 amended: in a multi-chunk output (at least two chunks) every chunk —
including the final one — satisfies
`character_count ≤ max (chunk_size + 2) (overlap + 2 + P)`, where `P` is the
length of the longest trimmed paragraph of the input.  The `chunk_size`
bound of the original claim fails because (a) a single paragraph longer than
`chunk_size` is buffered whole, and (b) the size check ignores the two
`"\n\n"` join characters; single-chunk outputs may be the entire trimmed
document. -/
theorem chunk_size_bound_amended (cs ov : Nat) (text : List Char)
    (h2 : 2 ≤ (split_text_into_chunks cs ov text).length) :
    ∀ ch ∈ split_text_into_chunks cs ov text,
      ch.character_count ≤ max (cs + 2) (ov + 2 + maxParaLen text) := by
  intro ch hch
  by_cases htext : text = []
  · rw [split_text_into_chunks, if_pos htext] at hch
    cases hch
  · rw [split_text_into_chunks, if_neg htext] at hch h2
    have hfold := foldl_chunkStep_bound cs ov (maxParaLen text)
      (splitParas text)
      (fun p hp => le_foldr_max _ _ (List.mem_map.mpr ⟨p, hp, rfl⟩))
      ⟨[], [], 0⟩ (by intro c hc; cases hc) (by simp)
    set st := (splitParas text).foldl (chunkStep cs ov) ⟨[], [], 0⟩ with hst
    rw [finalizeChunks] at hch h2
    by_cases hccne : strip st.current_chunk ≠ []
    · simp only [if_pos hccne] at hch h2
      have hnotfb : ¬ (st.chunks ++ [mkChunk st.current_chunk st.chunk_index]
          = [] ∧ strip text ≠ []) := by simp
      rw [if_neg hnotfb] at hch
      rcases List.mem_append.mp hch with h | h
      · exact hfold.1 ch h
      · rcases List.mem_singleton.mp h with rfl
        show (strip st.current_chunk).length ≤ _
        exact le_trans (strip_length_le _) hfold.2
    · simp only [if_neg hccne] at hch h2
      by_cases hfb : st.chunks = [] ∧ strip text ≠ []
      · rw [if_pos hfb] at h2
        simp at h2
      · rw [if_neg hfb] at hch
        exact hfold.1 ch hch

/-- Witness for C2 amended at a concrete input: `"ab\n\ncd\n\nef"` with
`chunk_size = 5`, `overlap = 0` yields two chunks (counts 6 and 2), both
within `max (5 + 2) (0 + 2 + 2) = 7`. -/
theorem chunk_size_bound_amended_witness :
    2 ≤ (split_text_into_chunks 5 0 (String.toList "ab\n\ncd\n\nef")).length ∧
    ∀ ch ∈ split_text_into_chunks 5 0 (String.toList "ab\n\ncd\n\nef"),
      ch.character_count ≤
        max (5 + 2) (0 + 2 + maxParaLen (String.toList "ab\n\ncd\n\nef")) :=
  ⟨by decide, chunk_size_bound_amended 5 0 _ (by decide)⟩

/-! ### C3: `AIService.generate_embeddings` is all-or-nothing -/

/-- The response of one call to the embedding endpoint: the HTTP status code
and the `embedding` field of the JSON body (`[]` when absent). -/
structure EmbResponse where
  status : Nat
  embedding : List ℚ
deriving DecidableEq

/-- The result dictionary of `AIService.generate_embeddings`: a success
carries the full embeddings list; a failure carries only an error message
(the failure dictionary has no `embeddings` key). -/
inductive EmbeddingsResult where
  | ok (embeddings : List (List ℚ))
  | err (error : String)
deriving DecidableEq

/-- The per-text loop of `generate_embeddings`, accumulating
`all_embeddings` and returning the failure dictionary on the first non-200
response. -/
def genEmbedLoop (provider : String → EmbResponse) :
    List String → List (List ℚ) → EmbeddingsResult
  | [], acc => .ok acc
  | t :: rest, acc =>
    if (provider t).status = 200 then
      genEmbedLoop provider rest (acc ++ [(provider t).embedding])
    else .err ("Embedding API Error: " ++ toString (provider t).status)

/-- `AIService.generate_embeddings`, with the remote provider passed in as a
function from the text to the endpoint's response. -/
def generate_embeddings (provider : String → EmbResponse)
    (texts : List String) : EmbeddingsResult :=
  genEmbedLoop provider texts []

lemma genEmbedLoop_spec (provider : String → EmbResponse)
    (texts : List String) : ∀ acc : List (List ℚ),
    (∀ l, genEmbedLoop provider texts acc = .ok l →
      l = acc ++ texts.map fun t => (provider t).embedding) ∧
    ((∃ t ∈ texts, (provider t).status ≠ 200) →
      ∃ e, genEmbedLoop provider texts acc = .err e) := by
  induction texts with
  | nil =>
    intro acc
    refine ⟨fun l h => ?_, fun h => ?_⟩
    · rw [genEmbedLoop] at h
      cases h
      simp
    · obtain ⟨t, ht, _⟩ := h
      cases ht
  | cons t rest ih =>
    intro acc
    by_cases hs : (provider t).status = 200
    · refine ⟨fun l h => ?_, fun h => ?_⟩
      · rw [genEmbedLoop, if_pos hs] at h
        have := (ih (acc ++ [(provider t).embedding])).1 l h
        simpa using this
      · rcases h with ⟨u, hu, hne⟩
        rcases List.mem_cons.mp hu with rfl | hu
        · exact absurd hs hne
        · obtain ⟨e, he⟩ := (ih (acc ++ [(provider t).embedding])).2 ⟨u, hu, hne⟩
          exact ⟨e, by rw [genEmbedLoop, if_pos hs]; exact he⟩
    · refine ⟨fun l h => ?_, fun _ => ?_⟩
      · rw [genEmbedLoop, if_neg hs] at h
        cases h
      · exact ⟨_, by rw [genEmbedLoop, if_neg hs]⟩

/-- C3: `generate_embeddings` returns either a success carrying exactly the
provider's embedding for each input text, in input order (so one output per
input), or a failure carrying no embedding list at all; in particular, if
any single per-text provider call returns a non-200 status, the whole
operation reports failure and the embeddings already obtained are
discarded. -/
theorem generate_embeddings_all_or_nothing (provider : String → EmbResponse)
    (texts : List String) :
    (∀ l, generate_embeddings provider texts = .ok l →
      l = texts.map fun t => (provider t).embedding) ∧
    ((∃ t ∈ texts, (provider t).status ≠ 200) →
      ∃ e, generate_embeddings provider texts = .err e) := by
  have h := genEmbedLoop_spec provider texts []
  refine ⟨fun l hl => ?_, h.2⟩
  have := h.1 l hl
  simpa using this

/-- A concrete provider that fails on `"b"` and succeeds elsewhere. -/
def embProviderEx : String → EmbResponse :=
  fun t => if t = "b" then ⟨500, []⟩ else ⟨200, [1]⟩

/-- Witness for C3 at a concrete input: on `["a", "b", "c"]` with a provider
failing on `"b"`, the whole call fails (no partial `["vecA", _, "vecC"]`). -/
theorem generate_embeddings_witness :
    (∃ t ∈ ["a", "b", "c"], (embProviderEx t).status ≠ 200) ∧
    ∃ e, generate_embeddings embProviderEx ["a", "b", "c"] = .err e :=
  ⟨⟨"b", by decide, by decide⟩,
   (generate_embeddings_all_or_nothing embProviderEx ["a", "b", "c"]).2
     ⟨"b", by decide, by decide⟩⟩

/-! ### C4: `RAGEngine._extract_sources_info` -/

/-- The metadata dictionary carried by a retrieval hit (keys optional). -/
structure HitMeta where
  document_id : Option String
  filename : Option String
  chunk_index : Option Nat
deriving DecidableEq

/-- One retrieval hit as consumed by the RAG engine helpers. -/
structure Hit where
  score : ℚ
  text : String
  metadata : HitMeta
deriving DecidableEq

/-- One entry of the `sources` list built by `_extract_sources_info`. -/
structure SourceInfo where
  document_id : String
  filename : String
  relevance_score : ℚ
  chunk_count : Nat
deriving DecidableEq

/-- The `for source in sources: ... break` update: the first entry with the
given `document_id` gets its `chunk_count` incremented and its
`relevance_score` raised to the hit's score when larger. -/
def updateSources (d : String) (score : ℚ) :
    List SourceInfo → List SourceInfo
  | [] => []
  | s :: rest =>
    if s.document_id = d then
      { s with
        chunk_count := s.chunk_count + 1
        relevance_score :=
          if s.relevance_score < score then score else s.relevance_score } ::
        rest
    else s :: updateSources d score rest

/-- The hit loop of `_extract_sources_info` with its `sources` accumulator
and `seen_docs` set (a falsy — missing or empty — `document_id` is
skipped). -/
def extractLoop : List Hit → List SourceInfo → List String → List SourceInfo
  | [], sources, _ => sources
  | c :: rest, sources, seen =>
    match c.metadata.document_id with
    | none => extractLoop rest sources seen
    | some d =>
      if d ≠ "" ∧ d ∉ seen then
        extractLoop rest
          (sources ++ [⟨d, c.metadata.filename.getD "Unknown", c.score, 1⟩])
          (seen ++ [d])
      else if d ∈ seen then
        extractLoop rest (updateSources d c.score sources) seen
      else extractLoop rest sources seen

/-- `RAGEngine._extract_sources_info`. -/
def extract_sources_info (chunks : List Hit) : List SourceInfo :=
  extractLoop chunks [] []

example :
    extract_sources_info
      [⟨(90 : ℚ), "t1", ⟨some "d1", some "f1", some 0⟩⟩,
       ⟨(85 : ℚ), "t2", ⟨some "d1", some "f1", some 1⟩⟩,
       ⟨(80 : ℚ), "t3", ⟨some "d2", some "f2", some 0⟩⟩] =
      [⟨"d1", "f1", (90 : ℚ), 2⟩, ⟨"d2", "f2", (80 : ℚ), 1⟩] := by
  decide

/-- The hit's document id (`""` stands for a missing id; the theorems below
hypothesise a present, non-empty id). -/
def hitId (c : Hit) : String := (c.metadata.document_id).getD ""

/-- Number of hits carrying the given document id. -/
def hitCount (d : String) (chunks : List Hit) : Nat :=
  (chunks.filter fun c => hitId c = d).length

/-- Running maximum of the scores of the hits with the given id, seeded
with `q`, using the same strict comparison as the source's update. -/
def maxFrom (q : ℚ) (d : String) : List Hit → ℚ
  | [] => q
  | c :: rest =>
    maxFrom (if hitId c = d ∧ q < c.score then c.score else q) d rest

/-- How a list of hits transforms an already-registered source entry: the
chunk count grows by the number of its hits, the relevance score by their
running maximum. -/
def bump (chunks : List Hit) (s : SourceInfo) : SourceInfo :=
  { s with
    relevance_score := maxFrom s.relevance_score s.document_id chunks
    chunk_count := s.chunk_count + hitCount s.document_id chunks }

/-- The source entries created for ids not yet in `seen`, first-seen
order. -/
def newEntries (seen : List String) : List Hit → List SourceInfo
  | [] => []
  | c :: rest =>
    if hitId c ∈ seen then newEntries seen rest
    else
      ⟨hitId c, c.metadata.filename.getD "Unknown",
        maxFrom c.score (hitId c) rest, 1 + hitCount (hitId c) rest⟩ ::
        newEntries (seen ++ [hitId c]) rest

/-- Defined from the claim's words: first-seen-order deduplication with an
accumulator of already-seen ids. -/
def firstSeenAux (seen : List String) : List String → List String
  | [] => []
  | d :: rest =>
    if d ∈ seen then firstSeenAux seen rest
    else d :: firstSeenAux (seen ++ [d]) rest

/-- Defined from the claim's words: first-seen-order deduplication of a
list of document ids. -/
def firstSeen (l : List String) : List String := firstSeenAux [] l

lemma bump_nil (s : SourceInfo) : bump [] s = s := by
  cases s
  simp [bump, maxFrom, hitCount]

lemma maxFrom_cons_ne (q : ℚ) (d : String) (c : Hit) (rest : List Hit)
    (h : hitId c ≠ d) : maxFrom q d (c :: rest) = maxFrom q d rest := by
  rw [maxFrom, if_neg]
  rintro ⟨h1, _⟩
  exact h h1

lemma hitCount_cons_ne (d : String) (c : Hit) (rest : List Hit)
    (h : hitId c ≠ d) : hitCount d (c :: rest) = hitCount d rest := by
  rw [hitCount, hitCount, List.filter_cons_of_neg]
  simp [h]

lemma hitCount_cons_eq (d : String) (c : Hit) (rest : List Hit)
    (h : hitId c = d) : hitCount d (c :: rest) = 1 + hitCount d rest := by
  rw [hitCount, hitCount, List.filter_cons_of_pos]
  · simp [Nat.add_comm]
  · simp [h]

lemma bump_cons_ne (c : Hit) (rest : List Hit) (s : SourceInfo)
    (h : hitId c ≠ s.document_id) : bump (c :: rest) s = bump rest s := by
  rw [bump, bump, maxFrom_cons_ne _ _ _ _ h, hitCount_cons_ne _ _ _ h]

lemma updateSources_map_id (d : String) (q : ℚ)
    (sources : List SourceInfo) :
    (updateSources d q sources).map SourceInfo.document_id =
      sources.map SourceInfo.document_id := by
  induction sources with
  | nil => rfl
  | cons s tl ih =>
    rw [updateSources]
    by_cases h : s.document_id = d
    · simp [if_pos h]
    · simp only [if_neg h, List.map_cons, ih]

lemma updateSources_bump (c : Hit) (rest : List Hit) :
    ∀ sources : List SourceInfo,
      (sources.map SourceInfo.document_id).Nodup →
      (updateSources (hitId c) c.score sources).map (bump rest) =
        sources.map (bump (c :: rest)) := by
  intro sources
  induction sources with
  | nil => intro _; rfl
  | cons s tl ih =>
    intro hnd
    rw [List.map_cons, List.nodup_cons] at hnd
    rw [updateSources]
    by_cases h : s.document_id = hitId c
    · rw [if_pos h]
      rw [List.map_cons, List.map_cons]
      have hA : maxFrom
          (if s.relevance_score < c.score then c.score else s.relevance_score)
          s.document_id rest =
          maxFrom s.relevance_score s.document_id (c :: rest) := by
        conv_rhs => rw [maxFrom]
        congr 1
        by_cases hlt : s.relevance_score < c.score
        · rw [if_pos hlt, if_pos ⟨h.symm, hlt⟩]
        · rw [if_neg hlt, if_neg fun hh => hlt hh.2]
      have hB : s.chunk_count + 1 + hitCount s.document_id rest =
          s.chunk_count + hitCount s.document_id (c :: rest) := by
        rw [hitCount_cons_eq _ _ _ h.symm]
        omega
      have hhead : bump rest
          { s with
            chunk_count := s.chunk_count + 1
            relevance_score :=
              if s.relevance_score < c.score then c.score
              else s.relevance_score } = bump (c :: rest) s := by
        simp only [bump, hA, hB]
      rw [hhead]
      congr 1
      apply List.map_congr_left
      intro u hu
      have hune : hitId c ≠ u.document_id := by
        intro he
        exact hnd.1 (List.mem_map.mpr ⟨u, hu, by rw [← he, ← h]⟩)
      rw [bump_cons_ne _ _ _ hune]
    · rw [if_neg h]
      rw [List.map_cons, List.map_cons, ih hnd.2,
        bump_cons_ne _ _ _ (fun he => h he.symm)]

lemma extractLoop_eq (chunks : List Hit) :
    ∀ (sources : List SourceInfo) (seen : List String),
      (∀ c ∈ chunks, ∃ d, c.metadata.document_id = some d ∧ d ≠ "") →
      seen = sources.map SourceInfo.document_id →
      seen.Nodup →
      extractLoop chunks sources seen =
        sources.map (bump chunks) ++ newEntries seen chunks := by
  induction chunks with
  | nil =>
    intro sources seen _ _ _
    rw [extractLoop, newEntries, List.append_nil]
    have : sources.map (bump []) = sources.map id :=
      List.map_congr_left fun s _ => by rw [bump_nil]; rfl
    rw [this, List.map_id]
  | cons c rest ih =>
    intro sources seen hall hseen hnd
    obtain ⟨d, hd, hdne⟩ := hall c (List.mem_cons_self _ _)
    have hrest := fun u hu => hall u (List.mem_cons_of_mem _ hu)
    have hid : hitId c = d := by rw [hitId, hd]; rfl
    rw [extractLoop]
    simp only [hd]
    by_cases hmem : d ∈ seen
    · rw [if_neg (fun hh => hh.2 hmem), if_pos hmem]
      have hupd := updateSources_map_id d c.score sources
      have hnd2 : (updateSources d c.score sources).map
          SourceInfo.document_id = seen := by rw [hupd, ← hseen]
      have hLoop := ih (updateSources d c.score sources) seen hrest
        hnd2.symm hnd
      rw [hLoop]
      have hupdmap : (updateSources d c.score sources).map (bump rest) =
          sources.map (bump (c :: rest)) := by
        rw [← hid]
        exact updateSources_bump c rest sources (hseen ▸ hnd)
      rw [hupdmap]
      congr 1
      rw [newEntries]
      rw [if_pos (hid ▸ hmem)]
    · rw [if_pos ⟨hdne, hmem⟩]
      have hnewseen : seen ++ [d] =
          (sources ++ [(⟨d, c.metadata.filename.getD "Unknown",
            c.score, 1⟩ : SourceInfo)]).map SourceInfo.document_id := by
        rw [List.map_append, ← hseen]
        rfl
      have hnodup2 : (seen ++ [d]).Nodup := by
        refine List.Nodup.append hnd (List.nodup_singleton d) ?_
        intro a ha hb
        rw [List.mem_singleton.mp hb] at ha
        exact hmem ha
      have hLoop := ih
        (sources ++
          [(⟨d, c.metadata.filename.getD "Unknown", c.score, 1⟩ : SourceInfo)])
        (seen ++ [d]) hrest hnewseen hnodup2
      rw [hLoop, List.map_append]
      have hmapeq : sources.map (bump rest) = sources.map (bump (c :: rest)) := by
        apply List.map_congr_left
        intro u hu
        have hune : hitId c ≠ u.document_id := by
          intro he
          apply hmem
          rw [← hid, he, hseen]
          exact List.mem_map.mpr ⟨u, hu, rfl⟩
        rw [bump_cons_ne _ _ _ hune]
      have hheadeq : [(⟨d, c.metadata.filename.getD "Unknown",
          c.score, 1⟩ : SourceInfo)].map (bump rest) =
          [(⟨hitId c, c.metadata.filename.getD "Unknown",
            maxFrom c.score (hitId c) rest,
            1 + hitCount (hitId c) rest⟩ : SourceInfo)] := by
        rw [List.map_cons, List.map_nil, ← hid, bump]
      rw [hmapeq, hheadeq]
      conv_rhs => rw [newEntries]
      rw [if_neg (hid ▸ hmem), ← hid]
      rw [List.append_assoc]
      rfl

lemma newEntries_id_not_seen (l : List Hit) :
    ∀ seen, ∀ s ∈ newEntries seen l, s.document_id ∉ seen := by
  induction l with
  | nil =>
    intro seen s hs
    cases hs
  | cons c rest ih =>
    intro seen s hs
    rw [newEntries] at hs
    by_cases h : hitId c ∈ seen
    · rw [if_pos h] at hs
      exact ih seen s hs
    · rw [if_neg h] at hs
      rcases List.mem_cons.mp hs with rfl | hs
      · exact h
      · intro hmem
        exact ih (seen ++ [hitId c]) s hs (List.mem_append_left _ hmem)

lemma newEntries_ids (l : List Hit) :
    ∀ seen, (newEntries seen l).map SourceInfo.document_id =
      firstSeenAux seen (l.map hitId) := by
  induction l with
  | nil => intro seen; rfl
  | cons c rest ih =>
    intro seen
    rw [newEntries, List.map_cons, firstSeenAux]
    by_cases h : hitId c ∈ seen
    · rw [if_pos h, if_pos h]
      exact ih seen
    · rw [if_neg h, if_neg h, List.map_cons, ih (seen ++ [hitId c])]

lemma maxFrom_mem (d : String) (l : List Hit) :
    ∀ q : ℚ, maxFrom q d l ∈
      q :: ((l.filter fun c => hitId c = d).map Hit.score) := by
  induction l with
  | nil =>
    intro q
    rw [maxFrom]
    simp
  | cons c rest ih =>
    intro q
    rw [maxFrom]
    by_cases h : hitId c = d ∧ q < c.score
    · rw [if_pos h, List.filter_cons_of_pos (by simp [h.1]), List.map_cons]
      rcases List.mem_cons.mp (ih c.score) with h1 | h1
      · rw [h1]
        exact List.mem_cons_of_mem _ (List.mem_cons_self _ _)
      · exact List.mem_cons_of_mem _ (List.mem_cons_of_mem _ h1)
    · rw [if_neg h]
      by_cases hc : hitId c = d
      · rw [List.filter_cons_of_pos (by simp [hc]), List.map_cons]
        rcases List.mem_cons.mp (ih q) with h1 | h1
        · rw [h1]
          exact List.mem_cons_self _ _
        · exact List.mem_cons_of_mem _ (List.mem_cons_of_mem _ h1)
      · rw [List.filter_cons_of_neg (by simp [hc])]
        exact ih q

lemma maxFrom_le (d : String) (l : List Hit) :
    ∀ q : ℚ, q ≤ maxFrom q d l ∧
      ∀ x ∈ ((l.filter fun c => hitId c = d).map Hit.score),
        x ≤ maxFrom q d l := by
  induction l with
  | nil =>
    intro q
    rw [maxFrom]
    exact ⟨le_refl q, fun x hx => absurd hx (by simp)⟩
  | cons c rest ih =>
    intro q
    rw [maxFrom]
    by_cases h : hitId c = d ∧ q < c.score
    · rw [if_pos h]
      refine ⟨le_trans (le_of_lt h.2) (ih c.score).1, ?_⟩
      intro x hx
      rw [List.filter_cons_of_pos (by simp [h.1]), List.map_cons] at hx
      rcases List.mem_cons.mp hx with rfl | hx
      · exact (ih c.score).1
      · exact (ih c.score).2 x hx
    · rw [if_neg h]
      refine ⟨(ih q).1, ?_⟩
      intro x hx
      by_cases hc : hitId c = d
      · rw [List.filter_cons_of_pos (by simp [hc]), List.map_cons] at hx
        rcases List.mem_cons.mp hx with rfl | hx
        · have hnlt : ¬ q < c.score := fun hlt => h ⟨hc, hlt⟩
          exact le_trans (le_of_not_lt hnlt) (ih q).1
        · exact (ih q).2 x hx
      · rw [List.filter_cons_of_neg (by simp [hc])] at hx
        exact (ih q).2 x hx

lemma newEntries_stats (l : List Hit) :
    ∀ seen, ∀ s ∈ newEntries seen l,
      s.chunk_count = hitCount s.document_id l ∧
      s.relevance_score ∈
        ((l.filter fun c => hitId c = s.document_id).map Hit.score) ∧
      ∀ q ∈ ((l.filter fun c => hitId c = s.document_id).map Hit.score),
        q ≤ s.relevance_score := by
  induction l with
  | nil =>
    intro seen s hs
    cases hs
  | cons c rest ih =>
    intro seen s hs
    rw [newEntries] at hs
    by_cases h : hitId c ∈ seen
    · rw [if_pos h] at hs
      have hne : hitId c ≠ s.document_id := by
        intro he
        exact (newEntries_id_not_seen rest seen s hs) (he ▸ h)
      rw [hitCount_cons_ne _ _ _ hne,
        List.filter_cons_of_neg (by simp [hne])]
      exact ih seen s hs
    · rw [if_neg h] at hs
      rcases List.mem_cons.mp hs with rfl | hs
      · refine ⟨?_, ?_, ?_⟩
        · show 1 + hitCount (hitId c) rest = hitCount (hitId c) (c :: rest)
          rw [hitCount_cons_eq _ _ _ rfl]
        · show maxFrom c.score (hitId c) rest ∈ _
          rw [List.filter_cons_of_pos (by simp), List.map_cons]
          rcases List.mem_cons.mp (maxFrom_mem (hitId c) rest c.score)
            with h1 | h1
          · rw [h1]
            exact List.mem_cons_self _ _
          · exact List.mem_cons_of_mem _ h1
        · intro x hx
          rw [List.filter_cons_of_pos (by simp), List.map_cons] at hx
          rcases List.mem_cons.mp hx with rfl | hx
          · exact (maxFrom_le (hitId c) rest c.score).1
          · exact (maxFrom_le (hitId c) rest c.score).2 x hx
      · have hsnotin := newEntries_id_not_seen rest (seen ++ [hitId c]) s hs
        have hne : hitId c ≠ s.document_id := by
          intro he
          apply hsnotin
          rw [← he]
          exact List.mem_append_right _ (List.mem_cons_self _ _)
        rw [hitCount_cons_ne _ _ _ hne,
          List.filter_cons_of_neg (by simp [hne])]
        exact ih (seen ++ [hitId c]) s hs

/-- C4: when every hit's metadata carries a (non-empty) `document_id`,
`_extract_sources_info` returns exactly one source entry per distinct
`document_id`, in first-seen order; each entry's `chunk_count` is the
number of hits from that document and its `relevance_score` is the maximum
score over that document's hits (it is one of those scores and bounds all
of them). -/
theorem extract_sources_spec (chunks : List Hit)
    (h : ∀ c ∈ chunks, ∃ d, c.metadata.document_id = some d ∧ d ≠ "") :
    ((extract_sources_info chunks).map SourceInfo.document_id =
      firstSeen (chunks.map hitId)) ∧
    ∀ s ∈ extract_sources_info chunks,
      s.chunk_count = hitCount s.document_id chunks ∧
      s.relevance_score ∈
        ((chunks.filter fun c => hitId c = s.document_id).map Hit.score) ∧
      ∀ q ∈ ((chunks.filter fun c => hitId c = s.document_id).map Hit.score),
        q ≤ s.relevance_score := by
  have he : extract_sources_info chunks = newEntries [] chunks := by
    rw [extract_sources_info,
      extractLoop_eq chunks [] [] h rfl List.nodup_nil]
    rfl
  constructor
  · rw [he, newEntries_ids]
    rfl
  · rw [he]
    exact newEntries_stats chunks []

/-- Witness for C4 at a concrete input: three hits, two of them from
document `d1` with scores 90 and 85, one from `d2`; the result has one entry
per document in first-seen order, with max score and hit count. -/
theorem extract_sources_spec_witness :
    (∀ c ∈ [(⟨90, "t1", ⟨some "d1", some "f1", some 0⟩⟩ : Hit),
            ⟨85, "t2", ⟨some "d1", some "f1", some 1⟩⟩,
            ⟨80, "t3", ⟨some "d2", some "f2", some 0⟩⟩],
      ∃ d, c.metadata.document_id = some d ∧ d ≠ "") ∧
    (extract_sources_info
        [⟨90, "t1", ⟨some "d1", some "f1", some 0⟩⟩,
         ⟨85, "t2", ⟨some "d1", some "f1", some 1⟩⟩,
         ⟨80, "t3", ⟨some "d2", some "f2", some 0⟩⟩]).map
      SourceInfo.document_id = ["d1", "d2"] ∧
    ∀ s ∈ extract_sources_info
        [⟨90, "t1", ⟨some "d1", some "f1", some 0⟩⟩,
         ⟨85, "t2", ⟨some "d1", some "f1", some 1⟩⟩,
         ⟨80, "t3", ⟨some "d2", some "f2", some 0⟩⟩],
      s.chunk_count = hitCount s.document_id
        [⟨90, "t1", ⟨some "d1", some "f1", some 0⟩⟩,
         ⟨85, "t2", ⟨some "d1", some "f1", some 1⟩⟩,
         ⟨80, "t3", ⟨some "d2", some "f2", some 0⟩⟩] := by
  have hhyp : ∀ c ∈ [(⟨90, "t1", ⟨some "d1", some "f1", some 0⟩⟩ : Hit),
      ⟨85, "t2", ⟨some "d1", some "f1", some 1⟩⟩,
      ⟨80, "t3", ⟨some "d2", some "f2", some 0⟩⟩],
      ∃ d, c.metadata.document_id = some d ∧ d ≠ "" := by
    intro c hc
    rcases List.mem_cons.mp hc with rfl | hc
    · exact ⟨"d1", rfl, by decide⟩
    rcases List.mem_cons.mp hc with rfl | hc
    · exact ⟨"d1", rfl, by decide⟩
    rcases List.mem_cons.mp hc with rfl | hc
    · exact ⟨"d2", rfl, by decide⟩
    cases hc
  have hmain := extract_sources_spec _ hhyp
  refine ⟨hhyp, ?_, fun s hs => (hmain.2 s hs).1⟩
  rw [hmain.1]
  decide

/-! ### C5: the prompt builder with empty context -/

/-- `RAGEngine._build_enhanced_system_prompt`: with a non-empty context the
fixed Thai template wraps the base prompt, context and query; an empty
context returns the base prompt unchanged. -/
def build_enhanced_system_prompt (base_prompt context query : String) :
    String :=
  if context = "" then base_prompt
  else
    base_prompt ++ "\n\nข้อมูลที่เกี่ยวข้องจากเอกสาร:\n" ++ context ++
      "\n\nใช้ข้อมูลจากเอกสารข้างต้นในการตอบคำถาม หากไม่พบข้อมูลที่เกี่ยวข้องในเอกสาร ให้แจ้งให้ทราบและตอบตามความรู้ทั่วไป\n\nคำถาม: " ++
      query ++ "\n"

/-- C5: for every base system prompt and every query, an empty context makes
the prompt builder return the base prompt unchanged — byte-identical, with
no template section appended. -/
theorem empty_context_prompt_unchanged (base query : String) :
    build_enhanced_system_prompt base "" query = base := by
  rw [build_enhanced_system_prompt, if_pos rfl]

/-! ### C6: the context assembler -/

/-- The fixed separator joining context blocks. -/
def ctxSep : String := "\n\n---\n\n"

/-- The provenance tag of one block: `[เอกสาร: <filename>, ส่วนที่ <n>]`
(Thai for "document" and "part"); the filename defaults to `"Unknown"` and
the part number is `chunk_index + 1`, with `chunk_index` defaulting to the
hit's position `i`. -/
def ctxTag (meta : HitMeta) (i : Nat) : String :=
  "[เอกสาร: " ++ meta.filename.getD "Unknown" ++ ", ส่วนที่ " ++
    toString (meta.chunk_index.getD i + 1) ++ "]"

/-- Python `str.strip()` on a `String`, via the character-list `strip`. -/
def pyStrip (s : String) : String := ⟨strip s.data⟩

/-- The enumerated loop of `_build_context_from_chunks` accumulating
`context_parts`: a hit whose text strips to empty is skipped; otherwise the
block is the tag, a newline, and the hit's stripped text. -/
def buildParts (i : Nat) : List Hit → List String
  | [] => []
  | c :: rest =>
    if pyStrip c.text ≠ "" then
      (ctxTag c.metadata i ++ "\n" ++ pyStrip c.text) ::
        buildParts (i + 1) rest
    else buildParts (i + 1) rest

/-- `RAGEngine._build_context_from_chunks`. -/
def build_context_from_chunks (chunks : List Hit) : String :=
  if chunks = [] then ""
  else String.intercalate ctxSep (buildParts 0 chunks)

/-- C6 counterexample: a one-hit list whose hit has whitespace-only text
yields the empty context rather than one rendered block, and a hit with
text `"a "` is rendered with its text stripped under a Thai provenance tag —
so the output is not "each hit as a block `[document: ..., part ...]`
followed by the hit's text". -/
theorem context_assembly_counterexample :
    build_context_from_chunks [⟨90, " ", ⟨some "d1", some "f.txt", some 0⟩⟩]
      = "" ∧
    build_context_from_chunks [⟨90, "a ", ⟨some "d1", some "f.txt", some 0⟩⟩]
      = "[เอกสาร: f.txt, ส่วนที่ 1]\na" := by
  constructor
  · decide
  · decide

/-- Defined from the amended claim's words: the hits whose text is
non-whitespace are each rendered as a tagged block (tag, newline, stripped
text), in the hits' given order with their positions, and the blocks are
joined with the fixed separator; an empty hit list gives the empty
string. -/
def contextSpec (chunks : List Hit) : String :=
  String.intercalate ctxSep
    (chunks.enum.filterMap fun ic =>
      if pyStrip ic.2.text = "" then none
      else some (ctxTag ic.2.metadata ic.1 ++ "\n" ++ pyStrip ic.2.text))

lemma buildParts_eq_enumFrom (chunks : List Hit) :
    ∀ i, buildParts i chunks =
      (List.enumFrom i chunks).filterMap fun ic =>
        if pyStrip ic.2.text = "" then none
        else some (ctxTag ic.2.metadata ic.1 ++ "\n" ++ pyStrip ic.2.text) := by
  induction chunks with
  | nil => intro i; rfl
  | cons c rest ih =>
    intro i
    by_cases h : pyStrip c.text = ""
    · simp [buildParts, h, ih (i + 1)]
    · simp [buildParts, h, ih (i + 1)]

/-- C6 amended: the context assembler renders, in the hits' given order,
each hit whose text is non-whitespace as the block
`[เอกสาร: <filename>, ส่วนที่ <chunk_index+1>]` (Thai for
"document"/"part", filename defaulting to `"Unknown"`, `chunk_index`
defaulting to the hit's position) followed by a newline and the hit's
stripped text; hits with whitespace-only text are skipped; blocks are
joined with the fixed separator `"\n\n---\n\n"`; an empty hit list yields
the empty string. -/
theorem context_assembly_amended (chunks : List Hit) :
    build_context_from_chunks chunks = contextSpec chunks := by
  rw [build_context_from_chunks, contextSpec]
  by_cases h : chunks = []
  · rw [if_pos h, h]
    rfl
  · rw [if_neg h, buildParts_eq_enumFrom chunks 0]
    rfl

/-! ### The vector store adapter (`QdrantService`) -/

/-- The payload stored with one point (the keys the core reads back;
`add_documents` always sets them). -/
structure QPayload where
  text : String
  document_id : Option String
  filename : Option String
  chunk_index : Nat
  created_at : String
deriving DecidableEq

/-- One stored point. -/
structure QPoint where
  id : String
  vector : List ℚ
  payload : QPayload
deriving DecidableEq

/-- The backing collection.  The adapter's client is `Option Store`:
`none` models the degraded mode where construction of the backing client
failed. -/
abbrev Store := List QPoint

/-- The success/failure envelope every adapter operation returns. -/
inductive QRes (α : Type) where
  | ok (val : α)
  | err (error : String)
deriving DecidableEq

/-- One metadata dictionary passed to `add_documents` (optional keys). -/
structure DocMeta where
  document_id : Option String
  filename : Option String
  chunk_index : Option Nat
  created_at : Option String
deriving DecidableEq

/-- The point-construction loop of `add_documents`: one fresh id (`gen i`
models `uuid.uuid4()`), the vector, and a payload whose `chunk_index`
defaults to the position and whose `created_at` defaults to `now` (the
`**meta` spread lets the metadata override both). -/
def buildPoints (gen : Nat → String) (now : String) :
    Nat → List String → List (List ℚ) → List DocMeta → List QPoint
  | _, [], _, _ => []
  | _, _ :: _, [], _ => []
  | _, _ :: _, _ :: _, [] => []
  | i, t :: ts, e :: es, m :: ms =>
    ⟨gen i, e,
      ⟨t, m.document_id, m.filename, m.chunk_index.getD i,
        m.created_at.getD now⟩⟩ :: buildPoints gen now (i + 1) ts es ms

/-- `QdrantService.add_documents`: degraded-mode check, input length check,
point construction, then the upsert (fresh ids, so an append). Returns the
result envelope (point ids and count on success) and the new store. -/
def add_documents (gen : Nat → String) (now : String) (client : Option Store)
    (texts : List String) (embeddings : List (List ℚ))
    (metadata : List DocMeta) : QRes (List String × Nat) × Option Store :=
  match client with
  | none => (.err "Qdrant client not available", none)
  | some store =>
    if texts.length ≠ embeddings.length ∨ texts.length ≠ metadata.length then
      (.err "Mismatched input lengths", some store)
    else
      let points := buildPoints gen now 0 texts embeddings metadata
      (.ok (points.map QPoint.id, points.length), some (store ++ points))

/-- One formatted result of `search_similar`: id, score, text, and the
payload minus its `text` key. -/
structure SearchHit where
  id : String
  score : ℚ
  document_id : Option String
  filename : Option String
  chunk_index : Nat
  created_at : String
  text : String
deriving DecidableEq

/-- `QdrantService.search_similar`: the backing `client.search` call is
modelled as a parameter producing the raw scored points; the adapter
formats them, or fails in degraded mode. -/
def search_similar (rawSearch : Store → List ℚ → Nat → ℚ → List (ℚ × QPoint))
    (client : Option Store) (query_embedding : List ℚ) (limit : Nat)
    (score_threshold : ℚ) : QRes (List SearchHit) :=
  match client with
  | none => .err "Qdrant client not available"
  | some store =>
    .ok ((rawSearch store query_embedding limit score_threshold).map
      fun sp =>
        ⟨sp.2.id, sp.1, sp.2.payload.document_id, sp.2.payload.filename,
          sp.2.payload.chunk_index, sp.2.payload.created_at,
          sp.2.payload.text⟩)

/-- One chunk record returned by `get_document_chunks` (its `metadata` is
the full payload, `text` included). -/
structure ChunkRec where
  id : String
  text : String
  chunk_index : Nat
  metadata : QPayload
deriving DecidableEq

/-- The sort key order of `chunks.sort(key=lambda x: x.get("chunk_index", 0))`. -/
def chunkLE (a b : ChunkRec) : Prop := a.chunk_index ≤ b.chunk_index

instance : DecidableRel chunkLE := fun a b =>
  Nat.decLe a.chunk_index b.chunk_index

instance : IsTotal ChunkRec chunkLE :=
  ⟨fun a b => Nat.le_total a.chunk_index b.chunk_index⟩

instance : IsTrans ChunkRec chunkLE := ⟨fun _ _ _ => Nat.le_trans⟩

/-- `QdrantService.get_document_chunks`: scroll the store with an equality
filter on `document_id` (first page of up to 1000 points), format each
point, and stably sort ascending by `chunk_index` (Python's `list.sort` is
stable; `List.insertionSort` with `≤` places earlier elements first among
equal keys). -/
def get_document_chunks (client : Option Store) (document_id : String) :
    QRes (List ChunkRec) :=
  match client with
  | none => .err "Qdrant client not available"
  | some store =>
    let pts := (store.filter
      fun p => p.payload.document_id = some document_id).take 1000
    let chunks := pts.map
      fun p => (⟨p.id, p.payload.text, p.payload.chunk_index, p.payload⟩ :
        ChunkRec)
    .ok (chunks.insertionSort chunkLE)

/-- `QdrantService.delete_document`: remove every point whose payload
`document_id` equals the given id. -/
def delete_document (client : Option Store) (document_id : String) :
    QRes Unit × Option Store :=
  match client with
  | none => (.err "Qdrant client not available", none)
  | some store =>
    (.ok (), some (store.filter
      fun p => ¬ p.payload.document_id = some document_id))

/-- `QdrantService.get_collection_info`: report the vector and point
counts. -/
def get_collection_info (client : Option Store) : QRes (Nat × Nat) :=
  match client with
  | none => .err "Qdrant client not available"
  | some store => .ok (store.length, store.length)

/-- C8: in degraded mode (the backing client failed to initialize, client
is `none`), every adapter operation — `add_documents`, `search_similar`,
`get_document_chunks`, `delete_document`, `get_collection_info` —
deterministically returns the store-unavailable failure envelope (and the
mutating operations leave no store behind); as total functions of their
inputs they raise nothing. -/
theorem degraded_mode_store_unavailable (gen : Nat → String) (now : String)
    (texts : List String) (embeddings : List (List ℚ))
    (metadata : List DocMeta)
    (rawSearch : Store → List ℚ → Nat → ℚ → List (ℚ × QPoint))
    (query_embedding : List ℚ) (limit : Nat) (score_threshold : ℚ)
    (docId docId2 : String) :
    add_documents gen now none texts embeddings metadata =
      (.err "Qdrant client not available", none) ∧
    search_similar rawSearch none query_embedding limit score_threshold =
      .err "Qdrant client not available" ∧
    get_document_chunks none docId = .err "Qdrant client not available" ∧
    delete_document none docId2 = (.err "Qdrant client not available", none) ∧
    get_collection_info none = .err "Qdrant client not available" :=
  ⟨rfl, rfl, rfl, rfl, rfl⟩

/-- C10: whenever the texts, embeddings and metadata lists do not all have
the same length, `add_documents` returns a failure envelope without
constructing points, and the stored collection is unchanged (for any client
state; with a live client the error is the length-mismatch message). -/
theorem add_documents_length_mismatch (gen : Nat → String) (now : String)
    (store : Store) (texts : List String) (embeddings : List (List ℚ))
    (metadata : List DocMeta)
    (h : texts.length ≠ embeddings.length ∨
      texts.length ≠ metadata.length) :
    add_documents gen now (some store) texts embeddings metadata =
      (.err "Mismatched input lengths", some store) := by
  rw [add_documents]
  simp only [if_pos h]

/-- Witness for C10 at a concrete input: one text but zero embeddings. -/
theorem add_documents_length_mismatch_witness :
    (["a"].length ≠ ([] : List (List ℚ)).length ∨
      ["a"].length ≠ ([] : List DocMeta).length) ∧
    add_documents (fun _ => "id") "now" (some []) ["a"] [] [] =
      (.err "Mismatched input lengths", some []) :=
  ⟨Or.inl (by decide),
   add_documents_length_mismatch _ _ _ _ _ _ (Or.inl (by decide))⟩

/-! ### C9: the document summary pipeline -/

/-- The fixed Thai summarization instruction of `get_document_summary`. -/
def summaryInstr : String := "กรุณาสรุปเนื้อหาของเอกสารนี้ให้อ่านง่ายและเข้าใจง่าย:\n\n"

/-- `" ".join(texts)`. -/
def joinSpace (l : List String) : String := String.intercalate " " l

/-- Python string slicing `s[:n]`: the first `n` code points. -/
def pyTake (s : String) (n : Nat) : String := ⟨s.data.take n⟩

/-- `RAGEngine.get_document_summary` up to its single completion call:
fetch the document's chunks, fail on a fetch error or an empty chunk list,
otherwise build the summarization prompt whose document text is the first
4000 characters of the space-joined chunk texts. -/
def summary_prompt (client : Option Store) (document_id : String) :
    QRes String :=
  match get_document_chunks client document_id with
  | .err e => .err ("Failed to get document chunks: " ++ e)
  | .ok chunks =>
    if chunks = [] then .err "No chunks found for document"
    else
      .ok (summaryInstr ++ pyTake (joinSpace (chunks.map ChunkRec.text)) 4000)

/-- C9: when the chunks of a document are fetched successfully and are
non-empty, they were selected from the store by an equality filter on
`document_id` (every returned chunk belongs to the document, and the list
is a permutation of the store's matching points — first page of up to 1000 —
not a similarity search), they are ordered ascending by `chunk_index`, and
the document text inside the single summarization prompt is exactly the
first 4000 characters of the concatenation (space-joined) of their texts in
that order. -/
theorem document_summary_spec (store : Store) (docId : String)
    (l : List ChunkRec)
    (hok : get_document_chunks (some store) docId = .ok l) (hne : l ≠ []) :
    (∀ c ∈ l, c.metadata.document_id = some docId) ∧
    l.Sorted chunkLE ∧
    l.Perm (((store.filter
      fun p => p.payload.document_id = some docId).take 1000).map
        fun p => (⟨p.id, p.payload.text, p.payload.chunk_index, p.payload⟩ :
          ChunkRec)) ∧
    summary_prompt (some store) docId =
      .ok (summaryInstr ++ pyTake (joinSpace (l.map ChunkRec.text)) 4000) := by
  have hok2 := hok
  rw [get_document_chunks] at hok2
  injection hok2 with hl
  refine ⟨?_, ?_, ?_, ?_⟩
  · intro c hc
    rw [← hl] at hc
    have hmem : c ∈ ((store.filter
        fun p => p.payload.document_id = some docId).take 1000).map
          fun p => (⟨p.id, p.payload.text, p.payload.chunk_index,
            p.payload⟩ : ChunkRec) :=
      (List.Perm.mem_iff (List.perm_insertionSort chunkLE _)).mp hc
    obtain ⟨p, hp, hpc⟩ := List.mem_map.mp hmem
    have hpf := List.take_subset 1000 _ hp
    have := (List.mem_filter.mp hpf).2
    rw [← hpc]
    simpa using this
  · rw [← hl]
    exact List.sorted_insertionSort chunkLE _
  · rw [← hl]
    exact List.perm_insertionSort chunkLE _
  · rw [summary_prompt, hok]
    simp only [if_neg hne]

/-- A concrete store: three points of document `doc1` stored out of
`chunk_index` order, with one point of another document in between. -/
def exStore : Store :=
  [⟨"p1", [], ⟨"tC", some "doc1", some "f", 2, "t0"⟩⟩,
   ⟨"p2", [], ⟨"tA", some "doc1", some "f", 0, "t0"⟩⟩,
   ⟨"px", [], ⟨"tX", some "doc2", some "f", 0, "t0"⟩⟩,
   ⟨"p3", [], ⟨"tB", some "doc1", some "f", 1, "t0"⟩⟩]

/-- The chunks `get_document_chunks` returns for `doc1` on `exStore`. -/
def exChunks : List ChunkRec :=
  [⟨"p2", "tA", 0, ⟨"tA", some "doc1", some "f", 0, "t0"⟩⟩,
   ⟨"p3", "tB", 1, ⟨"tB", some "doc1", some "f", 1, "t0"⟩⟩,
   ⟨"p1", "tC", 2, ⟨"tC", some "doc1", some "f", 2, "t0"⟩⟩]

/-- Witness for C9 at a concrete input: fetching `doc1` from `exStore`
succeeds with a non-empty, `chunk_index`-ascending chunk list, and the
summarization prompt carries the space-joined texts `"tA tB tC"`. -/
theorem document_summary_spec_witness :
    get_document_chunks (some exStore) "doc1" = .ok exChunks ∧
    exChunks ≠ [] ∧
    (∀ c ∈ exChunks, c.metadata.document_id = some "doc1") ∧
    exChunks.Sorted chunkLE ∧
    summary_prompt (some exStore) "doc1" =
      .ok (summaryInstr ++
        pyTake (joinSpace (exChunks.map ChunkRec.text)) 4000) := by
  have hok : get_document_chunks (some exStore) "doc1" = .ok exChunks := by
    decide
  have hne : exChunks ≠ [] := by decide
  have h := document_summary_spec exStore "doc1" exChunks hok hne
  exact ⟨hok, hne, h.1, h.2.1, h.2.2.2⟩

end OAIBot
